import Mathlib

/-!
A shallow embedding of the dynamotree hierarchical-storage core
(`dynamodb.go`, `tree.go`): the path codec, the batch writer, the link
resolver and the tree operations `Put`, `PutLink`, `Get`, `GetLink`,
`List` (here `listItems`) and `Delete`, together with proofs of the
specification claims.

Strings are modelled as lists of characters.  The delimiter
(`Tree.SpecialCharacter`, default `¦`) is modelled as a single
character, following the specification's data model ("a single
configurable string (default a rare single-byte UTF-8 symbol)"; both
delimiters exercised by the repository, `¦` and `X`, are single
characters).  The DynamoDB table is modelled as a list of items, each
item a finite map from attribute names to attribute values, addressed
by the `Key` (hash) and `Child` (range) attributes.
-/

namespace Dynamotree

/-- Character strings, as carried by DynamoDB `S` attributes. -/
abbrev Str := List Char

/-- DynamoDB attribute values.  The Go `dynamodb.AttributeValue` is a
struct of optional typed fields; the code under study only ever reads
the `S` (string) field, any non-string payload shape is represented by
`BOOL`. -/
inductive AttrValue where
  | S (s : Str)
  | BOOL (b : Bool)
  deriving DecidableEq

/-- An item: a finite map from attribute names to attribute values
(Go `map[string]*dynamodb.AttributeValue`), as an association list
with distinct names. -/
abbrev AttrMap := List (Str × AttrValue)

/-- Error taxonomy of the tree operations (`tree.go` error values,
plus the effects the Go code does not return as values: opaque store
errors, the unbounded link recursion, and the nil-pointer dereference
of a link attribute that has no `S` field). -/
inductive TreeErr where
  | notFound
  | notLink
  | reservedKey
  | reservedAttr
  | marshalFailed
  | unmarshalFailed
  | storeFailed
  | depthLimit
  | panicked
  deriving DecidableEq

/-- Result of a fallible tree operation. -/
inductive Outcome (α : Type) where
  | ok (a : α)
  | err (e : TreeErr)
  deriving DecidableEq

/-- The attribute name `"Key"` (the DynamoDB hash key). -/
def keyName : Str := ['K', 'e', 'y']

/-- The attribute name `"Child"` (the DynamoDB range key). -/
def childName : Str := ['C', 'h', 'i', 'l', 'd']

/-- The default delimiter `¦` (`DefaultSpecialCharacter`). -/
def defaultSpecial : Char := '¦'

/-- Go map lookup `m[name]`. -/
def attrGet (m : AttrMap) (name : Str) : Option AttrValue :=
  match m with
  | [] => none
  | (n, v) :: rest => if n = name then some v else attrGet rest name

/-- Go map assignment `m[name] = v`: replace the binding if the name is
present, otherwise add it. -/
def attrSet (m : AttrMap) (name : Str) (v : AttrValue) : AttrMap :=
  match m with
  | [] => [(name, v)]
  | (n, w) :: rest => if n = name then (name, v) :: rest else (n, w) :: attrSet rest name v

/-- `strings.Join(parts, sep)` for the single-character separator `d`. -/
def joinD (d : Char) : List Str → Str
  | [] => []
  | [k] => k
  | k :: k2 :: rest => k ++ [d] ++ joinD d (k2 :: rest)

/-- `strings.Split(s, sep)` for the single-character separator `d`;
like the Go function it never returns an empty list (the `[]` arm of
the inner match is unreachable). -/
def splitOnChar (d : Char) : Str → List Str
  | [] => [[]]
  | c :: rest =>
    match splitOnChar d rest with
    | [] => []
    | t :: ts => if c = d then [] :: t :: ts else (c :: t) :: ts

/-- The edge row written for one prefix level (`dynamodb.go` lines
90-101 and 167-178): an item whose `Key` is the accumulated prefix and
whose `Child` is the next path component. -/
def edgeItem (pathKey childKey : Str) : AttrMap :=
  [(keyName, .S pathKey), (childName, .S childKey)]

/-- The object row stored by `Put` (lines 105-126): the marshalled
attributes with `Key` set to the full path key and `Child` set to the
delimiter. -/
def objectItem (d : Char) (pathKey : Str) (m : AttrMap) : AttrMap :=
  attrSet (attrSet m keyName (.S pathKey)) childName (.S [d])

/-- The link row stored by `PutLink` (lines 188-199): `Key`, `Child`
and the reserved attribute - named by the delimiter itself - holding
the delimiter-prefixed target path. -/
def linkItem (d : Char) (pathKey targetPathKey : Str) : AttrMap :=
  [(keyName, .S pathKey), (childName, .S [d]), ([d], .S targetPathKey)]

/-- A row mutation submitted to `BatchWriteItem`: a `PutRequest` with a
full item, or a `DeleteRequest` with a primary key. -/
inductive WriteRequest where
  | put (item : AttrMap)
  | del (pk sk : Str)
  deriving DecidableEq

/-- The edge-row loop shared by `Put` (lines 82-103) and `PutLink`
(lines 159-180): validates each component against the delimiter while
accumulating `pathKey`, emitting one edge row per component.  Returns
the edge requests and the final accumulated `pathKey`. -/
def edgeRequests (d : Char) (pathKey : Str) : List Str → Outcome (List WriteRequest × Str)
  | [] => .ok ([], pathKey)
  | k :: rest =>
    if d ∈ k then .err .reservedKey
    else
      match edgeRequests d (pathKey ++ [d] ++ k) rest with
      | .err e => .err e
      | .ok (reqs, fin) => .ok (.put (edgeItem (pathKey ++ [d]) k) :: reqs, fin)

/-- The pure shape of the edge rows emitted by `edgeRequests` on a
valid path (proved equal to it in `edgeRequests_ok`). -/
def edgeList (d : Char) (pathKey : Str) : List Str → List WriteRequest
  | [] => []
  | k :: rest => .put (edgeItem (pathKey ++ [d]) k) :: edgeList d (pathKey ++ [d] ++ k) rest

/-- The flattened path accumulated by the edge loop: one delimiter
before every component. -/
def flatPath (d : Char) : List Str → Str
  | [] => []
  | k :: rest => [d] ++ k ++ flatPath d rest

/-- The full mutation list computed by `Put` before any write is
issued (lines 80-126): edge rows, then the object row built from the
result of `item.MarshalDynamoDB()` (`marshalled`, with `none` standing
for a marshalling error), guarded by the reserved-attribute check. -/
def putRequests (d : Char) (key : List Str) (marshalled : Option AttrMap) :
    Outcome (List WriteRequest) :=
  match edgeRequests d [] key with
  | .err e => .err e
  | .ok (edges, pathKey) =>
    match marshalled with
    | none => .err .marshalFailed
    | some m =>
      let obj := objectItem d pathKey m
      if obj.any (fun p => decide (p.1.head? = some d)) then .err .reservedAttr
      else .ok (edges ++ [.put obj])

/-- The full mutation list computed by `PutLink` (lines 157-205):
edge rows for the link path, the target validation loop, then the
link row. -/
def putLinkRequests (d : Char) (key target : List Str) : Outcome (List WriteRequest) :=
  match edgeRequests d [] key with
  | .err e => .err e
  | .ok (edges, pathKey) =>
    if target.any (fun k => decide (d ∈ k)) then .err .reservedKey
    else .ok (edges ++ [.put (linkItem d pathKey ([d] ++ joinD d target))])

/-- The two delete mutations computed by `Delete` (lines 348-376).
The Go code indexes `key[len(key)-1]`, which panics on the empty
path; that is the `none` branch here. -/
def deleteRequests (d : Char) (key : List Str) : Option (List WriteRequest) :=
  match key.getLast? with
  | none => none
  | some last =>
    let pathKey := [d] ++ joinD d key.dropLast ++ [d]
    some [.del pathKey last, .del (pathKey ++ last) [d]]

/-- The DynamoDB table: a list of items addressed by their `Key` and
`Child` attributes. -/
abbrev Store := List AttrMap

/-- The primary key of an item: its `Key` and `Child` string
attributes. -/
def itemPK (m : AttrMap) : Option (Str × Str) :=
  match attrGet m keyName, attrGet m childName with
  | some (.S k), some (.S c) => some (k, c)
  | _, _ => none

/-- `GetItem`: point lookup by primary key.  A DynamoDB `GetItem` on
an absent key returns an empty item, which the Go code detects with
`len(resp.Item) == 0`; every stored row carries its key attributes,
so absence coincides with `none` here. -/
def getItem (store : Store) (pk sk : Str) : Option AttrMap :=
  match store with
  | [] => none
  | m :: rest => if itemPK m = some (pk, sk) then some m else getItem rest pk sk

/-- Apply one processed write request to the table: a put replaces the
item carrying the same primary key, a delete removes it. -/
def applyWrite (store : Store) : WriteRequest → Store
  | .put item => item :: store.filter (fun m => decide (itemPK m ≠ itemPK item))
  | .del pk sk => store.filter (fun m => decide (itemPK m ≠ some (pk, sk)))

/-- Apply a list of processed write requests in order. -/
def applyAll (store : Store) (reqs : List WriteRequest) : Store :=
  reqs.foldl applyWrite store

/-- The chunking loop `for i := 0; i < len(writeRequests); i += 25`
(lines 128-137): the consecutive slices `writeRequests[i : i+25]`.
Structured with the list length as explicit recursion fuel. -/
def chunksAux (fuel : Nat) (l : List WriteRequest) : List (List WriteRequest) :=
  match fuel, l with
  | 0, _ => []
  | _, [] => []
  | f + 1, a :: r => ((a :: r).take 25) :: chunksAux f ((a :: r).drop 25)

/-- The batch chunks of a mutation list (size at most 25 each). -/
def chunks25 (l : List WriteRequest) : List (List WriteRequest) := chunksAux l.length l

/-- The backing store's response to the `t`-th `BatchWriteItem` call:
`none` is a hard error, `some u` reports `u` as the unprocessed
items. -/
abbrev Oracle := Nat → List WriteRequest → Option (List WriteRequest)

/-- The per-chunk retry loop (lines 139-148): submit the pending set,
replace it with whatever the store reports as unprocessed, and stop
when that set is empty.  Returns whether the chunk finished and the
sequence of submissions actually made; `fuel` bounds the
(in Go, unbounded) number of iterations. -/
def retryLoop (orc : Oracle) : Nat → Nat → List WriteRequest → Bool × List (List WriteRequest)
  | 0, _, _ => (false, [])
  | fuel + 1, t, pending =>
    match orc t pending with
    | none => (false, [pending])
    | some [] => (true, [pending])
    | some (u :: us) =>
      let r := retryLoop orc fuel (t + 1) (u :: us)
      (r.1, pending :: r.2)

/-- The outer chunk loop of the batch writer: run the retry loop on
each chunk in order, aborting on a hard error. -/
def runChunks (orc : Oracle) (fuel : Nat) : Nat → List (List WriteRequest) → Bool × List (List WriteRequest)
  | _, [] => (true, [])
  | t, c :: cs =>
    let r := retryLoop orc fuel t c
    if r.1 then
      let r2 := runChunks orc fuel (t + r.2.length) cs
      (r2.1, r.2 ++ r2.2)
    else (false, r.2)

/-- `Tree.Put` under a backing store that processes every submitted
item (the batch loop of lines 128-149 with no unprocessed items and no
errors): the computed mutations are applied chunk by chunk. -/
def Put (d : Char) (key : List Str) (marshalled : Option AttrMap) (store : Store) :
    Outcome Store :=
  match putRequests d key marshalled with
  | .err e => .err e
  | .ok reqs => .ok ((chunks25 reqs).foldl applyAll store)

/-- `Tree.PutLink` under a store that processes every submitted item
(lines 207-229). -/
def PutLink (d : Char) (key target : List Str) (store : Store) : Outcome Store :=
  match putLinkRequests d key target with
  | .err e => .err e
  | .ok reqs => .ok ((chunks25 reqs).foldl applyAll store)

/-- `Tree.Get` (lines 241-274): point-read the object row, recursively
follow the reserved link attribute, otherwise unmarshal.  `unm` is
`ob.UnmarshalDynamoDB` (`none` = unmarshalling error); `fuel` bounds
the recursion, which is unbounded in Go. -/
def Get {V : Type} (d : Char) (unm : AttrMap → Option V) (store : Store) :
    Nat → List Str → Outcome V
  | 0, _ => .err .depthLimit
  | fuel + 1, key =>
    match getItem store ([d] ++ joinD d key) [d] with
    | none => .err .notFound
    | some item =>
      match attrGet item [d] with
      | some (.S target) => Get d unm store fuel ((splitOnChar d target).drop 1)
      | some _ => .err .panicked
      | none =>
        match unm item with
        | some v => .ok v
        | none => .err .unmarshalFailed

/-- `Tree.GetLink` (lines 279-308): point-read the object row and
return the split link target without following further hops. -/
def GetLink (d : Char) (store : Store) (key : List Str) : Outcome (List Str) :=
  match getItem store ([d] ++ joinD d key) [d] with
  | none => .err .notFound
  | some item =>
    match attrGet item [d] with
    | some (.S target) => .ok ((splitOnChar d target).drop 1)
    | some _ => .err .panicked
    | none => .err .notLink

/-- `Tree.List` (lines 314-339): the sequence of `Child` names of the
rows whose `Key` equals the delimiter-joined prefix with leading and
trailing delimiter - the values passed to `itemFunc` when the visitor
never stops early. -/
def listItems (d : Char) (store : Store) (keyPref : List Str) : List Str :=
  (store.filter
      (fun m => decide (attrGet m keyName = some (.S ([d] ++ joinD d keyPref ++ [d]))))).filterMap
    (fun m =>
      match attrGet m childName with
      | some (.S c) => some c
      | _ => none)

/-- `Tree.Delete` (lines 344-395) under a store that processes every
submitted item: apply the two computed delete mutations (a single
batch, below the chunk limit). -/
def Delete (d : Char) (key : List Str) (store : Store) : Option Store :=
  (deleteRequests d key).map (applyAll store)

/-- `Tree.Put` as an effect trace against an arbitrary store oracle:
the result together with every `BatchWriteItem` submission made.  The
mutation list and all validation are computed before the first
submission, exactly as in lines 80-149. -/
def PutTrace (d : Char) (key : List Str) (marshalled : Option AttrMap)
    (orc : Oracle) (fuel : Nat) : Outcome Unit × List (List WriteRequest) :=
  match putRequests d key marshalled with
  | .err e => (.err e, [])
  | .ok reqs =>
    let r := runChunks orc fuel 0 (chunks25 reqs)
    (if r.1 then .ok () else .err .storeFailed, r.2)

/-- `Tree.PutLink` as an effect trace against an arbitrary store
oracle (lines 157-229). -/
def PutLinkTrace (d : Char) (key target : List Str)
    (orc : Oracle) (fuel : Nat) : Outcome Unit × List (List WriteRequest) :=
  match putLinkRequests d key target with
  | .err e => (.err e, [])
  | .ok reqs =>
    let r := runChunks orc fuel 0 (chunks25 reqs)
    (if r.1 then .ok () else .err .storeFailed, r.2)

/-- A well-formed submission history for one chunk: the first
submission is the chunk itself, every later submission is exactly what
the store reported unprocessed for the previous one, and the history
ends at the first empty unprocessed report. -/
inductive RetryTrace (orc : Oracle) : Nat → List WriteRequest → List (List WriteRequest) → Prop where
  | done : ∀ t pending, orc t pending = some [] → RetryTrace orc t pending [pending]
  | step : ∀ t pending u tr, orc t pending = some u → u ≠ [] →
      RetryTrace orc (t + 1) u tr → RetryTrace orc t pending (pending :: tr)

/-- Whether a write request addresses the given primary key. -/
def touches (r : WriteRequest) (pk sk : Str) : Prop :=
  match r with
  | .put item => itemPK item = some (pk, sk)
  | .del a b => (a, b) = (pk, sk)

/-! ### Map and item lemmas -/

theorem attrGet_attrSet_self (m : AttrMap) (n : Str) (v : AttrValue) :
    attrGet (attrSet m n v) n = some v := by
  induction m with
  | nil => simp [attrSet, attrGet]
  | cons p rest ih =>
    by_cases h : p.1 = n
    · simp [attrSet, attrGet, h]
    · simp only [attrSet, attrGet, h, if_neg]
      simpa [h] using ih

theorem attrGet_attrSet_ne (m : AttrMap) (n n' : Str) (v : AttrValue) (h : n' ≠ n) :
    attrGet (attrSet m n v) n' = attrGet m n' := by
  induction m with
  | nil => simp [attrSet, attrGet, Ne.symm h]
  | cons p rest ih =>
    by_cases hp : p.1 = n
    · simp [attrSet, attrGet, hp, Ne.symm h]
    · simp only [attrSet, hp, if_neg, attrGet]
      by_cases hp' : p.1 = n'
      · simp [hp']
      · simp [hp', ih]

theorem mem_attrSet (m : AttrMap) (n : Str) (v : AttrValue) (p : Str × AttrValue) :
    p ∈ attrSet m n v → p = (n, v) ∨ p ∈ m := by
  induction m with
  | nil => intro h; simpa [attrSet] using h
  | cons q rest ih =>
    obtain ⟨a, b⟩ := q
    intro h
    by_cases hq : a = n
    · simp only [attrSet, if_pos hq, List.mem_cons] at h
      rcases h with h | h
      · exact Or.inl h
      · exact Or.inr (List.mem_cons_of_mem _ h)
    · simp only [attrSet, if_neg hq, List.mem_cons] at h
      rcases h with h | h
      · exact Or.inr (by simp [h])
      · rcases ih h with h' | h'
        · exact Or.inl h'
        · exact Or.inr (List.mem_cons_of_mem _ h')

theorem attrGet_clean_none (d : Char) (m : AttrMap)
    (h : ∀ p ∈ m, p.1.head? ≠ some d) : attrGet m [d] = none := by
  induction m with
  | nil => rfl
  | cons p rest ih =>
    have hne : p.1 ≠ [d] := by
      intro hp
      exact h p (List.mem_cons_self _ _) (by simp [hp])
    simp only [attrGet, hne, if_neg]
    exact ih fun q hq => h q (List.mem_cons_of_mem _ hq)

theorem single_ne_keyName (d : Char) : ([d] : Str) ≠ keyName := by
  intro h
  simpa [keyName] using congrArg List.length h

theorem single_ne_childName (d : Char) : ([d] : Str) ≠ childName := by
  intro h
  simpa [childName] using congrArg List.length h

theorem keyName_ne_childName : keyName ≠ childName := by decide

theorem itemPK_edgeItem (pk c : Str) : itemPK (edgeItem pk c) = some (pk, c) := by
  have h : keyName ≠ childName := keyName_ne_childName
  simp [itemPK, edgeItem, attrGet, h]

theorem itemPK_linkItem (d : Char) (pk t : Str) :
    itemPK (linkItem d pk t) = some (pk, [d]) := by
  have h : keyName ≠ childName := keyName_ne_childName
  simp [itemPK, linkItem, attrGet, h]

theorem attrGet_linkItem_delim (d : Char) (pk t : Str) :
    attrGet (linkItem d pk t) [d] = some (.S t) := by
  simp [linkItem, attrGet, Ne.symm (single_ne_keyName d), Ne.symm (single_ne_childName d)]

theorem itemPK_objectItem (d : Char) (pk : Str) (m : AttrMap) :
    itemPK (objectItem d pk m) = some (pk, [d]) := by
  have h1 : attrGet (objectItem d pk m) childName = some (.S [d]) :=
    attrGet_attrSet_self _ _ _
  have h2 : attrGet (objectItem d pk m) keyName = some (.S pk) := by
    rw [objectItem, attrGet_attrSet_ne _ _ _ _ keyName_ne_childName]
    exact attrGet_attrSet_self _ _ _
  simp [itemPK, h1, h2]

theorem attrGet_objectItem_delim (d : Char) (pk : Str) (m : AttrMap)
    (h : ∀ p ∈ m, p.1.head? ≠ some d) :
    attrGet (objectItem d pk m) [d] = none := by
  rw [objectItem, attrGet_attrSet_ne _ _ _ _ (single_ne_childName d),
    attrGet_attrSet_ne _ _ _ _ (single_ne_keyName d)]
  exact attrGet_clean_none d m h

/-! ### Store lemmas -/

theorem getItem_filter (s : Store) (p : AttrMap → Bool) (pk sk : Str)
    (h : ∀ m, itemPK m = some (pk, sk) → p m = true) :
    getItem (s.filter p) pk sk = getItem s pk sk := by
  induction s with
  | nil => rfl
  | cons m rest ih =>
    by_cases hm : itemPK m = some (pk, sk)
    · rw [List.filter_cons_of_pos (h m hm)]
      simp [getItem, hm]
    · cases hp : p m
      · rw [List.filter_cons_of_neg (by simp [hp])]
        simp [getItem, hm, ih]
      · rw [List.filter_cons_of_pos hp]
        simp [getItem, hm, ih]

theorem getItem_put_self (s : Store) (item : AttrMap) (pk sk : Str)
    (h : itemPK item = some (pk, sk)) :
    getItem (applyWrite s (.put item)) pk sk = some item := by
  simp [applyWrite, getItem, h]

theorem getItem_put_ne (s : Store) (item : AttrMap) (pk sk : Str)
    (h : itemPK item ≠ some (pk, sk)) :
    getItem (applyWrite s (.put item)) pk sk = getItem s pk sk := by
  simp only [applyWrite, getItem, h, if_neg]
  exact getItem_filter s _ pk sk fun m hm => by
    simp only [decide_eq_true_eq]
    rw [hm]
    exact fun hh => h hh.symm

theorem getItem_del_ne (s : Store) (a b pk sk : Str) (h : (a, b) ≠ (pk, sk)) :
    getItem (applyWrite s (.del a b)) pk sk = getItem s pk sk := by
  simp only [applyWrite]
  exact getItem_filter s _ pk sk fun m hm => by
    simp only [decide_eq_true_eq]
    rw [hm]
    intro hh
    exact h (by injection hh with hh'; exact hh'.symm ▸ rfl)

theorem getItem_applyWrite_ne (s : Store) (r : WriteRequest) (pk sk : Str)
    (h : ¬ touches r pk sk) :
    getItem (applyWrite s r) pk sk = getItem s pk sk := by
  cases r with
  | put item => exact getItem_put_ne s item pk sk h
  | del a b => exact getItem_del_ne s a b pk sk h

theorem getItem_applyAll_ne (reqs : List WriteRequest) :
    ∀ (s : Store) (pk sk : Str), (∀ r ∈ reqs, ¬ touches r pk sk) →
      getItem (applyAll s reqs) pk sk = getItem s pk sk := by
  induction reqs with
  | nil => intro s pk sk _; rfl
  | cons r rest ih =>
    intro s pk sk h
    have h1 : applyAll s (r :: rest) = applyAll (applyWrite s r) rest := rfl
    rw [h1, ih _ pk sk fun q hq => h q (List.mem_cons_of_mem _ hq),
      getItem_applyWrite_ne s r pk sk (h r (List.mem_cons_self _ _))]

/-! ### Join and split lemmas -/

theorem joinD_cons (d : Char) (k : Str) (q : List Str) (h : q ≠ []) :
    joinD d (k :: q) = k ++ [d] ++ joinD d q := by
  cases q with
  | nil => exact absurd rfl h
  | cons k2 rest => rfl

theorem splitOnChar_ne_nil (d : Char) (s : Str) : splitOnChar d s ≠ [] := by
  induction s with
  | nil => simp [splitOnChar]
  | cons c rest ih =>
    simp only [splitOnChar]
    cases hs : splitOnChar d rest with
    | nil => exact absurd hs ih
    | cons t ts =>
      by_cases hc : c = d <;> simp [hc]

theorem splitOnChar_no_delim (d : Char) (s : Str) (h : d ∉ s) :
    splitOnChar d s = [s] := by
  induction s with
  | nil => rfl
  | cons c rest ih =>
    have hc : c ≠ d := fun hc => h (by simp [hc])
    have hrest : splitOnChar d rest = [rest] := ih fun hr => h (List.mem_cons_of_mem _ hr)
    simp [splitOnChar, hrest, hc]

theorem splitOnChar_append_delim (d : Char) (s t : Str) (h : d ∉ s) :
    splitOnChar d (s ++ d :: t) = s :: splitOnChar d t := by
  induction s with
  | nil =>
    simp only [List.nil_append, splitOnChar]
    cases hs : splitOnChar d t with
    | nil => exact absurd hs (splitOnChar_ne_nil d t)
    | cons u us => simp
  | cons c s' ih =>
    have hc : c ≠ d := fun hc => h (by simp [hc])
    have hs' : d ∉ s' := fun hr => h (List.mem_cons_of_mem _ hr)
    have h1 : splitOnChar d ((c :: s') ++ d :: t) =
        match splitOnChar d (s' ++ d :: t) with
        | [] => []
        | u :: us => if c = d then [] :: u :: us else (c :: u) :: us := rfl
    rw [h1, ih hs']
    simp [hc]

theorem splitOnChar_joinD (d : Char) (q : List Str) (hq : q ≠ [])
    (hval : ∀ k ∈ q, d ∉ k) : splitOnChar d (joinD d q) = q := by
  induction q with
  | nil => exact absurd rfl hq
  | cons k rest ih =>
    cases rest with
    | nil =>
      exact splitOnChar_no_delim d k (hval k (List.mem_cons_self _ _))
    | cons k2 rest' =>
      have h1 : joinD d (k :: k2 :: rest') = k ++ d :: joinD d (k2 :: rest') := by
        simp [joinD]
      rw [h1, splitOnChar_append_delim d _ _ (hval k (List.mem_cons_self _ _)),
        ih (by simp) (fun k' hk' => hval k' (List.mem_cons_of_mem _ hk'))]

theorem splitOnChar_target (d : Char) (q : List Str) (hq : q ≠ [])
    (hval : ∀ k ∈ q, d ∉ k) :
    (splitOnChar d ([d] ++ joinD d q)).drop 1 = q := by
  have h1 : ([d] ++ joinD d q : Str) = ([] : Str) ++ d :: joinD d q := rfl
  rw [h1, splitOnChar_append_delim d [] _ (by simp),
    splitOnChar_joinD d q hq hval]
  rfl

theorem joinD_inj (d : Char) (p q : List Str) (hp : p ≠ []) (hq : q ≠ [])
    (hvp : ∀ k ∈ p, d ∉ k) (hvq : ∀ k ∈ q, d ∉ k)
    (h : joinD d p = joinD d q) : p = q := by
  have := splitOnChar_joinD d p hp hvp
  rw [h, splitOnChar_joinD d q hq hvq] at this
  exact this.symm

theorem flatPath_eq_joinD (d : Char) (q : List Str) (hq : q ≠ []) :
    flatPath d q = [d] ++ joinD d q := by
  induction q with
  | nil => exact absurd rfl hq
  | cons k rest ih =>
    cases rest with
    | nil => simp [flatPath, joinD]
    | cons k2 rest' =>
      have h1 : flatPath d (k :: k2 :: rest') = [d] ++ k ++ flatPath d (k2 :: rest') := rfl
      rw [h1, ih (by simp), joinD_cons d k _ (by simp)]
      simp

/-! ### Edge-loop characterization -/

theorem edgeRequests_ok (d : Char) (key : List Str) (h : ∀ k ∈ key, d ∉ k) :
    ∀ pfx : Str, edgeRequests d pfx key = .ok (edgeList d pfx key, pfx ++ flatPath d key) := by
  induction key with
  | nil => intro pfx; simp [edgeRequests, edgeList, flatPath]
  | cons k rest ih =>
    intro pfx
    have hk : d ∉ k := h k (List.mem_cons_self _ _)
    have hrest : ∀ k' ∈ rest, d ∉ k' := fun k' hk' => h k' (List.mem_cons_of_mem _ hk')
    simp only [edgeRequests, hk, if_neg, edgeList, ih hrest, flatPath]
    simp

theorem edgeList_touches (d : Char) (key : List Str) (hk : ∀ k ∈ key, d ∉ k) :
    ∀ (pfx : Str) (r : WriteRequest), r ∈ edgeList d pfx key →
      ∀ pk : Str, ¬ touches r pk [d] := by
  induction key with
  | nil => intro pfx r hr; simp [edgeList] at hr
  | cons k rest ih =>
    intro pfx r hr pk
    rcases List.mem_cons.mp hr with h1 | h1
    · subst h1
      intro ht
      simp only [touches, itemPK_edgeItem] at ht
      have hkd : k = [d] := by injection ht with ht'; exact congrArg Prod.snd ht'
      exact hk k (List.mem_cons_self _ _) (by simp [hkd])
    · exact ih (fun k' hk' => hk k' (List.mem_cons_of_mem _ hk')) _ r h1 pk

theorem edgeList_idx (d : Char) (key : List Str) :
    ∀ (pfx : Str) (i : Nat) (hi : i < key.length),
      (edgeList d pfx key)[i]? =
        some (.put (edgeItem (pfx ++ flatPath d (key.take i) ++ [d]) (key.get ⟨i, hi⟩))) := by
  induction key with
  | nil => intro pfx i hi; simp at hi
  | cons k rest ih =>
    intro pfx i hi
    cases i with
    | zero => simp [edgeList, flatPath]
    | succ j =>
      have hj : j < rest.length := by simpa using hi
      have h1 : (edgeList d pfx (k :: rest))[j + 1]? =
          (edgeList d (pfx ++ [d] ++ k) rest)[j]? := by
        simp [edgeList]
      rw [h1, ih _ j hj]
      simp only [List.take_succ_cons, flatPath, List.get_cons_succ]
      congr 2
      simp

/-! ### Chunking and retry lemmas -/

theorem chunksAux_flatten : ∀ (fuel : Nat) (l : List WriteRequest), l.length ≤ fuel →
    (chunksAux fuel l).flatten = l := by
  intro fuel
  induction fuel with
  | zero =>
    intro l hl
    rw [Nat.le_zero] at hl
    rw [List.eq_nil_of_length_eq_zero hl]
    rfl
  | succ f ih =>
    intro l hl
    cases l with
    | nil => rfl
    | cons a r =>
      have hdrop : ((a :: r).drop 25).length ≤ f := by
        simp only [List.length_drop, List.length_cons]
        simp only [List.length_cons] at hl
        omega
      simp only [chunksAux, List.flatten_cons, ih _ hdrop]
      exact List.take_append_drop 25 (a :: r)

theorem chunks25_flatten (l : List WriteRequest) : (chunks25 l).flatten = l :=
  chunksAux_flatten l.length l le_rfl

theorem chunksAux_le : ∀ (fuel : Nat) (l : List WriteRequest) (c : List WriteRequest),
    c ∈ chunksAux fuel l → c.length ≤ 25 := by
  intro fuel
  induction fuel with
  | zero => intro l c hc; simp [chunksAux] at hc
  | succ f ih =>
    intro l c hc
    cases l with
    | nil => simp [chunksAux] at hc
    | cons a r =>
      simp only [chunksAux, List.mem_cons] at hc
      rcases hc with hc | hc
      · subst hc
        simp [List.length_take]
      · exact ih _ c hc

theorem chunks25_le (l : List WriteRequest) (c : List WriteRequest)
    (hc : c ∈ chunks25 l) : c.length ≤ 25 :=
  chunksAux_le l.length l c hc

theorem foldl_applyAll_join : ∀ (parts : List (List WriteRequest)) (s : Store),
    parts.foldl applyAll s = applyAll s parts.flatten := by
  intro parts
  induction parts with
  | nil => intro s; rfl
  | cons c cs ih =>
    intro s
    simp only [List.foldl_cons, List.flatten_cons, ih, applyAll, List.foldl_append]

theorem retryLoop_trace (orc : Oracle) : ∀ (fuel t : Nat) (c : List WriteRequest)
    (tr : List (List WriteRequest)), retryLoop orc fuel t c = (true, tr) →
    RetryTrace orc t c tr := by
  intro fuel
  induction fuel with
  | zero => intro t c tr h; simp [retryLoop] at h
  | succ f ih =>
    intro t c tr h
    simp only [retryLoop] at h
    cases ho : orc t c with
    | none => rw [ho] at h; simp at h
    | some u =>
      cases u with
      | nil =>
        rw [ho] at h
        simp only [Prod.mk.injEq] at h
        rw [← h.2]
        exact RetryTrace.done t c ho
      | cons x xs =>
        rw [ho] at h
        simp only [Prod.mk.injEq] at h
        obtain ⟨h1, h2⟩ := h
        rw [← h2]
        exact RetryTrace.step t c (x :: xs) _ ho (by simp)
          (ih (t + 1) (x :: xs) _ (Prod.ext h1 rfl))

/-! ### Characterization of Put and PutLink on valid input -/

theorem any_false {α : Type} (p : α → Bool) (l : List α)
    (h : ∀ x ∈ l, p x = false) : l.any p = false := by
  induction l with
  | nil => rfl
  | cons a rest ih =>
    simp only [List.any_cons, h a (List.mem_cons_self _ _), Bool.false_or]
    exact ih fun x hx => h x (List.mem_cons_of_mem _ hx)

theorem objectItem_clean (d : Char) (pk : Str) (m : AttrMap)
    (hattr : ∀ p ∈ m, p.1.head? ≠ some d) (hdK : d ≠ 'K') (hdC : d ≠ 'C') :
    ∀ p ∈ objectItem d pk m, p.1.head? ≠ some d := by
  intro p hp
  rcases mem_attrSet _ _ _ _ hp with h1 | h1
  · rw [h1]
    simp [childName]
    exact fun h => hdC h.symm
  · rcases mem_attrSet _ _ _ _ h1 with h2 | h2
    · rw [h2]
      simp [keyName]
      exact fun h => hdK h.symm
    · exact hattr p h2

theorem putRequests_ok (d : Char) (key : List Str) (m : AttrMap)
    (hk : ∀ k ∈ key, d ∉ k) (hattr : ∀ p ∈ m, p.1.head? ≠ some d)
    (hdK : d ≠ 'K') (hdC : d ≠ 'C') :
    putRequests d key (some m) =
      .ok (edgeList d [] key ++ [.put (objectItem d (flatPath d key) m)]) := by
  have hcheck : (objectItem d (flatPath d key) m).any (fun p => decide (p.1.head? = some d)) = false :=
    any_false _ _ fun p hp => by
      simpa using objectItem_clean d (flatPath d key) m hattr hdK hdC p hp
  simp only [putRequests, edgeRequests_ok d key hk []]
  simp only [List.nil_append, hcheck]
  rfl

theorem putLinkRequests_ok (d : Char) (key target : List Str)
    (hk : ∀ k ∈ key, d ∉ k) (ht : ∀ k ∈ target, d ∉ k) :
    putLinkRequests d key target =
      .ok (edgeList d [] key ++
        [.put (linkItem d (flatPath d key) ([d] ++ joinD d target))]) := by
  have hcheck : target.any (fun k => decide (d ∈ k)) = false :=
    any_false _ _ fun k hk' => by simpa using ht k hk'
  simp only [putLinkRequests, edgeRequests_ok d key hk []]
  simp only [List.nil_append, hcheck]
  rfl

theorem applyAll_ok_of_requests (store : Store) (reqs : List WriteRequest) :
    (chunks25 reqs).foldl applyAll store = applyAll store reqs := by
  rw [foldl_applyAll_join, chunks25_flatten]

theorem Put_ok (d : Char) (key : List Str) (m : AttrMap) (store : Store)
    (hk : ∀ k ∈ key, d ∉ k) (hattr : ∀ p ∈ m, p.1.head? ≠ some d)
    (hdK : d ≠ 'K') (hdC : d ≠ 'C') :
    Put d key (some m) store =
      .ok (applyWrite (applyAll store (edgeList d [] key))
        (.put (objectItem d (flatPath d key) m))) := by
  simp only [Put, putRequests_ok d key m hk hattr hdK hdC, applyAll_ok_of_requests]
  simp [applyAll, List.foldl_append]

theorem PutLink_ok (d : Char) (key target : List Str) (store : Store)
    (hk : ∀ k ∈ key, d ∉ k) (ht : ∀ k ∈ target, d ∉ k) :
    PutLink d key target store =
      .ok (applyWrite (applyAll store (edgeList d [] key))
        (.put (linkItem d (flatPath d key) ([d] ++ joinD d target)))) := by
  simp only [PutLink, putLinkRequests_ok d key target hk ht, applyAll_ok_of_requests]
  simp [applyAll, List.foldl_append]

/-- After a valid `Put`, the object row is found at the delimiter-joined
path key with the delimiter sort key. -/
theorem getItem_after_Put (d : Char) (key : List Str) (m : AttrMap) (store s' : Store)
    (hk : ∀ k ∈ key, d ∉ k) (hattr : ∀ p ∈ m, p.1.head? ≠ some d)
    (hdK : d ≠ 'K') (hdC : d ≠ 'C')
    (hput : Put d key (some m) store = .ok s') :
    getItem s' (flatPath d key) [d] = some (objectItem d (flatPath d key) m) := by
  rw [Put_ok d key m store hk hattr hdK hdC] at hput
  injection hput with hput'
  rw [← hput']
  exact getItem_put_self _ _ _ _ (itemPK_objectItem d (flatPath d key) m)

/-! ### Claim theorems -/

/-- Claim C1 (code bug witnessed at the single-component path `["a"]`
with the default delimiter): `Delete` computes the edge-row delete at
partition key `¦¦` and the object-row delete at partition key `¦¦a`,
while `Put(["a"], v)` stores the edge row under `¦` and the object row
under `¦a`; consequently `Delete(["a"])` removes neither row written by
`Put(["a"])` and leaves the store unchanged, and the object-row key it
computes differs from the delimiter-prefixed, delimiter-joined full
path `¦a` required by the claim. -/
theorem claim1_delete_single_component_bug :
    deleteRequests '¦' [['a']] =
      some [.del ['¦', '¦'] ['a'], .del ['¦', '¦', 'a'] ['¦']] ∧
    Put '¦' [['a']] (some []) [] =
      .ok [objectItem '¦' ['¦', 'a'] [], edgeItem ['¦'] ['a']] ∧
    Delete '¦' [['a']] [objectItem '¦' ['¦', 'a'] [], edgeItem ['¦'] ['a']] =
      some [objectItem '¦' ['¦', 'a'] [], edgeItem ['¦'] ['a']] ∧
    (['¦', '¦', 'a'] : Str) ≠ ['¦'] ++ joinD '¦' [['a']] := by
  decide

/-- Claim C3, counterexample: at the one-component path `["a"]` the
path codec emits the root-level edge row (step `i = 0`) with partition
key `¦` (the delimiter alone), which differs from the claimed formula
`delimiter ++ join(path[0..-1]) ++ delimiter = ¦¦`. -/
theorem claim3_counterexample :
    edgeRequests '¦' [] [['a']] = .ok ([.put (edgeItem ['¦'] ['a'])], ['¦', 'a']) ∧
    (['¦'] : Str) ≠ ['¦'] ++ joinD '¦' [] ++ ['¦'] := by
  decide

/-- Claim C3, amended: for every valid path and index `i < len(path)`,
the edge row emitted by the path codec at step `i` has sort key
`path[i]`, and its partition key is `delimiter ++ join(path[0..i-1]) ++
delimiter` when `i ≥ 1`, but the delimiter alone when `i = 0` (the
claimed formula would give two delimiters there). -/
theorem claim3_edge_row_formula (d : Char) (key : List Str) (i : Nat)
    (hval : ∀ k ∈ key, d ∉ k) (hi : i < key.length) :
    edgeRequests d [] key = .ok (edgeList d [] key, flatPath d key) ∧
    (edgeList d [] key)[i]? =
      some (.put (edgeItem
        (if i = 0 then [d] else [d] ++ joinD d (key.take i) ++ [d])
        (key.get ⟨i, hi⟩))) := by
  constructor
  · simpa using edgeRequests_ok d key hval []
  · rw [edgeList_idx d key [] i hi]
    cases i with
    | zero => simp [flatPath]
    | succ j =>
      have htake : key.take (j + 1) ≠ [] := by
        cases key with
        | nil => simp at hi
        | cons a l => simp
      rw [flatPath_eq_joinD d _ htake]
      simp

theorem claim3_edge_row_formula_witness :
    (∀ k ∈ [['a'], ['b']], '¦' ∉ k) ∧
    edgeRequests '¦' [] [['a'], ['b']] =
      .ok (edgeList '¦' [] [['a'], ['b']], flatPath '¦' [['a'], ['b']]) ∧
    (edgeList '¦' [] [['a'], ['b']])[1]? =
      some (.put (edgeItem
        (if 1 = 0 then ['¦'] else ['¦'] ++ joinD '¦' ([['a'], ['b']].take 1) ++ ['¦'])
        ([['a'], ['b']].get ⟨1, by decide⟩))) :=
  ⟨by decide, claim3_edge_row_formula '¦' [['a'], ['b']] 1 (by decide) (by decide)⟩

/-- Claim C10: `Delete` indexes the last path component, so its
computation is defined exactly on the non-empty paths; the error
branch of the embedding (the panic of the Go code) is reached exactly
on the empty path. -/
theorem claim10_delete_defined_iff_nonempty (d : Char) (key : List Str) :
    deleteRequests d key = none ↔ key = [] := by
  cases h : key.getLast? with
  | none =>
    have hk : key = [] := List.getLast?_eq_none_iff.mp h
    simp [deleteRequests, h, hk]
  | some last =>
    have hk : key ≠ [] := by
      intro hk
      subst hk
      simp at h
    simp [deleteRequests, h, hk]

/-- Claim C2: for every non-empty path whose components are non-empty
and contain no delimiter, and every value whose marshalling succeeds,
has no attribute name starting with the delimiter, and whose stored
row unmarshals back to the value, `Put` followed by `Get` succeeds and
yields the value.  The delimiter is assumed distinct from `K` and `C`:
the reserved-attribute check of the code also inspects the `Key` and
`Child` attributes it has just added, so a delimiter colliding with
their first letters is not a valid configuration under the data-model
invariant that no stored attribute name begins with the delimiter. -/
theorem claim2_put_get_roundtrip {V : Type} (d : Char) (unm : AttrMap → Option V)
    (m : AttrMap) (v : V) (key : List Str) (store : Store) (fuel : Nat)
    (hne : key ≠ []) (hcomp : ∀ k ∈ key, k ≠ [] ∧ d ∉ k)
    (hdK : d ≠ 'K') (hdC : d ≠ 'C')
    (hattr : ∀ p ∈ m, p.1.head? ≠ some d)
    (hunm : unm (objectItem d ([d] ++ joinD d key) m) = some v) :
    ∃ s', Put d key (some m) store = .ok s' ∧
      Get d unm s' (fuel + 1) key = .ok v := by
  have hk : ∀ k ∈ key, d ∉ k := fun k hk => (hcomp k hk).2
  have hflat : flatPath d key = [d] ++ joinD d key := flatPath_eq_joinD d key hne
  refine ⟨_, Put_ok d key m store hk hattr hdK hdC, ?_⟩
  have hget : getItem (applyWrite (applyAll store (edgeList d [] key))
      (.put (objectItem d (flatPath d key) m))) ([d] ++ joinD d key) [d] =
      some (objectItem d (flatPath d key) m) := by
    rw [← hflat]
    exact getItem_put_self _ _ _ _ (itemPK_objectItem d _ m)
  simp only [Get, hget, attrGet_objectItem_delim d _ m hattr]
  rw [hflat, hunm]

/-- Concrete deserializer used by the witnesses: reads the boolean
attribute named `A`. -/
def unmEx (mm : AttrMap) : Option Bool :=
  match attrGet mm ['A'] with
  | some (.BOOL b) => some b
  | _ => none

theorem claim2_put_get_roundtrip_witness :
    ∃ s', Put '¦' [['a']] (some [(['A'], .BOOL true)]) [] = .ok s' ∧
      Get '¦' unmEx s' (0 + 1) [['a']] = .ok true :=
  claim2_put_get_roundtrip '¦' unmEx [(['A'], .BOOL true)] true [['a']] [] 0
    (by decide) (by decide) (by decide) (by decide) (by decide) (by decide)

/-- Claim C4, counterexample: with link path equal to target path
(`p = q = ["a"]`), `PutLink` overwrites the object row it points at
with the link row, and `Get` then follows the self-link forever - the
fuelled embedding exhausts its recursion depth (here 5) instead of
returning the stored value, even with a deserializer that succeeds on
every item. -/
theorem claim4_counterexample :
    Put '¦' [['a']] (some []) [] =
      .ok [objectItem '¦' ['¦', 'a'] [], edgeItem ['¦'] ['a']] ∧
    PutLink '¦' [['a']] [['a']] [objectItem '¦' ['¦', 'a'] [], edgeItem ['¦'] ['a']] =
      .ok [linkItem '¦' ['¦', 'a'] ['¦', 'a'], edgeItem ['¦'] ['a']] ∧
    Get '¦' (fun _ => some true)
      [linkItem '¦' ['¦', 'a'] ['¦', 'a'], edgeItem ['¦'] ['a']] 5 [['a']] =
      .err .depthLimit := by
  decide

/-- Claim C4, amended: for every valid link path `p` and valid target
path `q` with `p ≠ q`, after `Put(q, v)` and `PutLink(p, q)`, `Get(p)`
follows the reserved link attribute and returns the value stored at
`q` (the unamended claim fails at `p = q`, where the link row replaces
its own target and the recursion never terminates). -/
theorem claim4_link_transparency {V : Type} (d : Char) (unm : AttrMap → Option V)
    (m : AttrMap) (v : V) (p q : List Str) (store : Store) (fuel : Nat)
    (hp : p ≠ []) (hq : q ≠ []) (hpq : p ≠ q)
    (hpc : ∀ k ∈ p, k ≠ [] ∧ d ∉ k) (hqc : ∀ k ∈ q, k ≠ [] ∧ d ∉ k)
    (hdK : d ≠ 'K') (hdC : d ≠ 'C')
    (hattr : ∀ r ∈ m, r.1.head? ≠ some d)
    (hunm : unm (objectItem d ([d] ++ joinD d q) m) = some v) :
    ∃ s1 s2, Put d q (some m) store = .ok s1 ∧ PutLink d p q s1 = .ok s2 ∧
      Get d unm s2 (fuel + 2) p = .ok v := by
  have hkp : ∀ k ∈ p, d ∉ k := fun k hk => (hpc k hk).2
  have hkq : ∀ k ∈ q, d ∉ k := fun k hk => (hqc k hk).2
  have hflatp : flatPath d p = [d] ++ joinD d p := flatPath_eq_joinD d p hp
  have hflatq : flatPath d q = [d] ++ joinD d q := flatPath_eq_joinD d q hq
  refine ⟨_, _, Put_ok d q m store hkq hattr hdK hdC,
    PutLink_ok d p q _ hkp hkq, ?_⟩
  have hgetlink : getItem
      (applyWrite
        (applyAll (applyWrite (applyAll store (edgeList d [] q))
          (.put (objectItem d (flatPath d q) m))) (edgeList d [] p))
        (.put (linkItem d (flatPath d p) ([d] ++ joinD d q))))
      ([d] ++ joinD d p) [d] =
      some (linkItem d (flatPath d p) ([d] ++ joinD d q)) := by
    rw [← hflatp]
    exact getItem_put_self _ _ _ _ (itemPK_linkItem d _ _)
  have hne_pq : flatPath d p ≠ [d] ++ joinD d q := by
    rw [hflatp]
    intro h
    exact hpq (joinD_inj d p q hp hq hkp hkq (by simpa using h))
  have hgetobj : getItem
      (applyWrite
        (applyAll (applyWrite (applyAll store (edgeList d [] q))
          (.put (objectItem d (flatPath d q) m))) (edgeList d [] p))
        (.put (linkItem d (flatPath d p) ([d] ++ joinD d q))))
      ([d] ++ joinD d q) [d] =
      some (objectItem d (flatPath d q) m) := by
    rw [getItem_put_ne _ _ _ _ (by
      rw [itemPK_linkItem]
      intro h
      injection h with h'
      exact hne_pq (congrArg Prod.fst h'))]
    rw [getItem_applyAll_ne _ _ _ _
      (fun r hr => edgeList_touches d p hkp [] r hr _)]
    rw [← hflatq]
    exact getItem_put_self _ _ _ _ (itemPK_objectItem d _ m)
  show Get d unm _ (fuel + 1 + 1) p = .ok v
  simp only [Get, hgetlink, attrGet_linkItem_delim]
  rw [splitOnChar_target d q hq hkq]
  simp only [Get, hgetobj, attrGet_objectItem_delim d _ m hattr]
  rw [hflatq, hunm]

theorem claim4_link_transparency_witness :
    ∃ s1 s2, Put '¦' [['a']] (some [(['A'], .BOOL true)]) [] = .ok s1 ∧
      PutLink '¦' [['b']] [['a']] s1 = .ok s2 ∧
      Get '¦' unmEx s2 (0 + 2) [['b']] = .ok true :=
  claim4_link_transparency '¦' unmEx [(['A'], .BOOL true)] true [['b']] [['a']] [] 0
    (by decide) (by decide) (by decide) (by decide) (by decide) (by decide)
    (by decide) (by decide) (by decide)

/-- Claim C5: for every valid link path and valid non-empty target
path, after `PutLink(p, q)`, `GetLink(p)` returns exactly the
component list `q`: the stored target round-trips through the
delimiter-joined encoding, and `GetLink` does not follow further
hops (it only splits the stored string). -/
theorem claim5_getlink_returns_target (d : Char) (p q : List Str) (store : Store)
    (hp : p ≠ []) (hq : q ≠ [])
    (hpc : ∀ k ∈ p, k ≠ [] ∧ d ∉ k) (hqc : ∀ k ∈ q, k ≠ [] ∧ d ∉ k) :
    ∃ s', PutLink d p q store = .ok s' ∧ GetLink d s' p = .ok q := by
  have hkp : ∀ k ∈ p, d ∉ k := fun k hk => (hpc k hk).2
  have hkq : ∀ k ∈ q, d ∉ k := fun k hk => (hqc k hk).2
  have hflatp : flatPath d p = [d] ++ joinD d p := flatPath_eq_joinD d p hp
  refine ⟨_, PutLink_ok d p q store hkp hkq, ?_⟩
  have hget : getItem (applyWrite (applyAll store (edgeList d [] p))
      (.put (linkItem d (flatPath d p) ([d] ++ joinD d q))))
      ([d] ++ joinD d p) [d] =
      some (linkItem d (flatPath d p) ([d] ++ joinD d q)) := by
    rw [← hflatp]
    exact getItem_put_self _ _ _ _ (itemPK_linkItem d _ _)
  simp only [GetLink, hget, attrGet_linkItem_delim]
  rw [splitOnChar_target d q hq hkq]

theorem claim5_getlink_returns_target_witness :
    ∃ s', PutLink '¦' [['b']] [['a']] [] = .ok s' ∧
      GetLink '¦' s' [['b']] = .ok [['a']] :=
  claim5_getlink_returns_target '¦' [['b']] [['a']] []
    (by decide) (by decide) (by decide) (by decide)

/-- Claim C6: `GetLink` fails with `notFound` when no object row
exists at the path, fails with `notLink` when an object row exists but
carries no reserved link attribute (in particular after a valid
`Put`), and succeeds exactly on rows carrying the reserved link
attribute with a string value. -/
theorem claim6_getlink_errors (d : Char) (store : Store) (p : List Str) (m : AttrMap)
    (hp : p ≠ []) (hpc : ∀ k ∈ p, d ∉ k)
    (hattr : ∀ r ∈ m, r.1.head? ≠ some d) (hdK : d ≠ 'K') (hdC : d ≠ 'C') :
    (getItem store ([d] ++ joinD d p) [d] = none →
      GetLink d store p = .err .notFound) ∧
    (∀ s', Put d p (some m) store = .ok s' → GetLink d s' p = .err .notLink) ∧
    (∀ l, GetLink d store p = .ok l →
      ∃ item t, getItem store ([d] ++ joinD d p) [d] = some item ∧
        attrGet item [d] = some (.S t) ∧ l = (splitOnChar d t).drop 1) := by
  refine ⟨?_, ?_, ?_⟩
  · intro h
    unfold GetLink
    simp only [h]
  · intro s' hput
    have hget := getItem_after_Put d p m store s' hpc hattr hdK hdC hput
    rw [flatPath_eq_joinD d p hp] at hget
    unfold GetLink
    simp only [hget, attrGet_objectItem_delim d _ m hattr]
  · intro l h
    unfold GetLink at h
    cases hg : getItem store ([d] ++ joinD d p) [d] with
    | none =>
      simp only [hg] at h
      exact Outcome.noConfusion h
    | some item =>
      simp only [hg] at h
      cases ha : attrGet item [d] with
      | none =>
        simp only [ha] at h
        exact Outcome.noConfusion h
      | some av =>
        cases av with
        | S t =>
          simp only [ha] at h
          refine ⟨item, t, rfl, ha, ?_⟩
          injection h with h2
          exact h2.symm
        | BOOL b =>
          simp only [ha] at h
          exact Outcome.noConfusion h

theorem claim6_getlink_errors_witness :
    ((getItem [] (['¦'] ++ joinD '¦' [['a']]) ['¦'] = none →
      GetLink '¦' [] [['a']] = .err .notFound) ∧
    (∀ s', Put '¦' [['a']] (some []) [] = .ok s' →
      GetLink '¦' s' [['a']] = .err .notLink) ∧
    (∀ l, GetLink '¦' [] [['a']] = .ok l →
      ∃ item t, getItem [] (['¦'] ++ joinD '¦' [['a']]) ['¦'] = some item ∧
        attrGet item ['¦'] = some (.S t) ∧ l = (splitOnChar '¦' t).drop 1)) :=
  claim6_getlink_errors '¦' [] [['a']] []
    (by decide) (by decide) (by decide) (by decide) (by decide)

/-- Claim C7: whenever `Put` or `PutLink` returns a reserved-character
or marshalling error, no `BatchWriteItem` call has been issued - the
submission trace is empty for every store oracle and fuel, so the
store state is unchanged by a validation failure. -/
theorem claim7_validation_before_write (d : Char) (key target : List Str)
    (marshalled : Option AttrMap) (orc : Oracle) (fuel : Nat) (e : TreeErr)
    (he : e = TreeErr.reservedKey ∨ e = TreeErr.reservedAttr ∨ e = TreeErr.marshalFailed) :
    ((PutTrace d key marshalled orc fuel).1 = .err e →
      (PutTrace d key marshalled orc fuel).2 = []) ∧
    ((PutLinkTrace d key target orc fuel).1 = .err e →
      (PutLinkTrace d key target orc fuel).2 = []) := by
  have hne : e ≠ TreeErr.storeFailed := by
    rcases he with h | h | h <;> subst h <;> decide
  constructor
  · intro h1
    unfold PutTrace at h1 ⊢
    cases hp : putRequests d key marshalled with
    | err e' => simp [hp]
    | ok reqs =>
      simp only [hp] at h1
      cases hr : (runChunks orc fuel 0 (chunks25 reqs)).1 with
      | true => simp [hr] at h1
      | false =>
        simp [hr] at h1
        exact absurd h1.symm hne
  · intro h1
    unfold PutLinkTrace at h1 ⊢
    cases hp : putLinkRequests d key target with
    | err e' => simp [hp]
    | ok reqs =>
      simp only [hp] at h1
      cases hr : (runChunks orc fuel 0 (chunks25 reqs)).1 with
      | true => simp [hr] at h1
      | false =>
        simp [hr] at h1
        exact absurd h1.symm hne

theorem claim7_validation_before_write_witness :
    (((PutTrace '¦' [['a', '¦']] (some []) (fun _ _ => some []) 1).1 =
        .err TreeErr.reservedKey →
      (PutTrace '¦' [['a', '¦']] (some []) (fun _ _ => some []) 1).2 = []) ∧
    ((PutLinkTrace '¦' [['a', '¦']] [['b']] (fun _ _ => some []) 1).1 =
        .err TreeErr.reservedKey →
      (PutLinkTrace '¦' [['a', '¦']] [['b']] (fun _ _ => some []) 1).2 = [])) ∧
    (PutTrace '¦' [['a', '¦']] (some []) (fun _ _ => some []) 1).2 = [] :=
  ⟨claim7_validation_before_write '¦' [['a', '¦']] [['b']] (some [])
      (fun _ _ => some []) 1 TreeErr.reservedKey (Or.inl rfl),
   (claim7_validation_before_write '¦' [['a', '¦']] [['b']] (some [])
      (fun _ _ => some []) 1 TreeErr.reservedKey (Or.inl rfl)).1 (by decide)⟩

/-- Claim C8: the batch writer splits any mutation list produced by
`Put` or `PutLink` into consecutive chunks of at most 25 requests
whose concatenation is the original list, and every terminating run of
the per-chunk retry loop is a well-formed retry history: the first
submission is the chunk, each later submission is exactly the
unprocessed set the store reported for the previous one, and the loop
ends at the first empty unprocessed report. -/
theorem claim8_batch_writer (d : Char) (key target : List Str)
    (marshalled : Option AttrMap) (reqs : List WriteRequest)
    (_h : putRequests d key marshalled = .ok reqs ∨
      putLinkRequests d key target = .ok reqs) :
    (chunks25 reqs).flatten = reqs ∧
    (∀ c ∈ chunks25 reqs, c.length ≤ 25) ∧
    (∀ c ∈ chunks25 reqs, ∀ (orc : Oracle) (fuel t : Nat)
      (tr : List (List WriteRequest)),
      retryLoop orc fuel t c = (true, tr) → RetryTrace orc t c tr) :=
  ⟨chunks25_flatten reqs, fun c hc => chunks25_le reqs c hc,
    fun c _ orc fuel t tr hr => retryLoop_trace orc fuel t c tr hr⟩

theorem claim8_batch_writer_witness :
    (chunks25 [.put (edgeItem ['¦'] ['a']),
      .put (objectItem '¦' ['¦', 'a'] [])]).flatten =
      [.put (edgeItem ['¦'] ['a']), .put (objectItem '¦' ['¦', 'a'] [])] ∧
    (∀ c ∈ chunks25 [.put (edgeItem ['¦'] ['a']),
      .put (objectItem '¦' ['¦', 'a'] [])], c.length ≤ 25) ∧
    (∀ c ∈ chunks25 [.put (edgeItem ['¦'] ['a']),
      .put (objectItem '¦' ['¦', 'a'] [])],
      ∀ (orc : Oracle) (fuel t : Nat) (tr : List (List WriteRequest)),
      retryLoop orc fuel t c = (true, tr) → RetryTrace orc t c tr) :=
  claim8_batch_writer '¦' [['a']] [] (some [])
    [.put (edgeItem ['¦'] ['a']), .put (objectItem '¦' ['¦', 'a'] [])]
    (Or.inl (by decide))

/-- Claim C9: `Put` writes the root-level edge row under the partition
key consisting of the delimiter alone, while `List` with an empty
prefix queries the partition key consisting of two delimiters; hence
after storing a single-component path in an empty store, listing the
root yields no items. -/
theorem claim9_list_root_empty (d : Char) (c : Str) (m : AttrMap) (s' : Store)
    (hc : d ∉ c) (hattr : ∀ p ∈ m, p.1.head? ≠ some d)
    (hdK : d ≠ 'K') (hdC : d ≠ 'C')
    (hput : Put d [c] (some m) [] = .ok s') :
    edgeItem [d] c ∈ s' ∧ listItems d s' [] = [] := by
  have hck : ∀ k ∈ [c], d ∉ k := by simpa using hc
  rw [Put_ok d [c] m [] hck hattr hdK hdC] at hput
  injection hput with h'
  subst h'
  have hne2 : itemPK (edgeItem ([d]) c) ≠
      itemPK (objectItem d (flatPath d [c]) m) := by
    rw [itemPK_edgeItem, itemPK_objectItem]
    intro h
    injection h with h2
    have hcd : c = [d] := congrArg Prod.snd h2
    exact hc (by rw [hcd]; simp)
  have h0 : applyAll [] (edgeList d [] [c]) = [edgeItem ([d]) c] := rfl
  have h1 : applyWrite [edgeItem ([d]) c]
      (.put (objectItem d (flatPath d [c]) m)) =
      [objectItem d (flatPath d [c]) m, edgeItem ([d]) c] := by
    simp [applyWrite, hne2]
  rw [h0, h1]
  constructor
  · simp
  · have hobj : attrGet (objectItem d (flatPath d [c]) m) keyName =
        some (.S (flatPath d [c])) := by
      rw [objectItem, attrGet_attrSet_ne _ _ _ _ keyName_ne_childName]
      exact attrGet_attrSet_self _ _ _
    have hedge : attrGet (edgeItem ([d]) c) keyName =
        some (.S ([d])) := by
      simp [edgeItem, attrGet]
    have hobjne : ¬ (attrGet (objectItem d (flatPath d [c]) m) keyName =
        some (.S ([d] ++ joinD d [] ++ [d]))) := by
      rw [hobj]
      intro h
      injection h with h2
      injection h2 with h3
      simp [flatPath, joinD] at h3
      exact hc (by rw [h3]; simp)
    have hedgene : ¬ (attrGet (edgeItem ([d]) c) keyName =
        some (.S ([d] ++ joinD d [] ++ [d]))) := by
      rw [hedge]
      intro h
      injection h with h2
      injection h2 with h3
      simpa [joinD] using congrArg List.length h3
    have hfilter : List.filter
        (fun mm => decide (attrGet mm keyName =
          some (.S ([d] ++ joinD d [] ++ [d]))))
        [objectItem d (flatPath d [c]) m, edgeItem ([d]) c] = [] := by
      rw [List.filter_cons_of_neg (by simpa using hobjne),
        List.filter_cons_of_neg (by simpa using hedgene)]
      rfl
    simp only [listItems, hfilter]
    rfl

theorem claim9_list_root_empty_witness :
    edgeItem ['¦'] ['a'] ∈ [objectItem '¦' ['¦', 'a'] [], edgeItem ['¦'] ['a']] ∧
    listItems '¦' [objectItem '¦' ['¦', 'a'] [], edgeItem ['¦'] ['a']] [] = [] :=
  claim9_list_root_empty '¦' ['a'] [] [objectItem '¦' ['¦', 'a'] [], edgeItem ['¦'] ['a']]
    (by decide) (by decide) (by decide) (by decide) (by decide)

end Dynamotree
